import Mathlib

/-!
A shallow embedding of the route-assembly layer in `src/algorithm.py` of the
project-work repository, together with proofs about its behaviour.

Modelling conventions:
* Python float quantities are modelled as rationals (`0` and `0.0` compare
  equal in Python, as they do here).
* A networkx graph is modelled by the interface the code uses:
  `number_of_nodes` (field `n`; the code iterates node ids `0 .. n-1`),
  `has_edge`, the per-node `gold` attribute (`none` when absent), and
  `nx.shortest_path` with the `dist` weight, which returns `none` exactly
  where networkx raises `NetworkXNoPath` or `NodeNotFound`.
* The external planner `solve_return_solution` is out of scope for the spec;
  `run` therefore takes the planner result (a list of trips) as an explicit
  argument.
-/

abbrev Waypoint : Type := Nat × ℚ

structure Graph where
  n : Nat
  has_edge : Nat → Nat → Bool
  gold : Nat → Option ℚ
  shortest_path : Nat → Nat → Option (List Nat)

structure Trip where
  stops : List Nat
  pickups : List ℚ
deriving DecidableEq

structure Solution where
  trips : List Trip
deriving DecidableEq

/-- Helper for `is_valid`: the loop over `zip(path, path[1:])`, checking that
every consecutive pair of nodes is joined by an edge. -/
def consecutiveOk (G : Graph) : List Nat → Bool
  | n1 :: n2 :: rest => G.has_edge n1 n2 && consecutiveOk G (n2 :: rest)
  | _ => true

/-- Embedding of `is_valid` from `src/algorithm.py`: the path is non-empty,
its first node is the depot 0 or adjacent to it, and every consecutive pair
of nodes is connected by an edge. -/
def is_valid (G : Graph) (path : List Waypoint) : Bool :=
  match path with
  | [] => false
  | (n0, _) :: _ =>
    if n0 != 0 && ! G.has_edge 0 n0 then false
    else consecutiveOk G (path.map Prod.fst)

/-- Embedding of the inner loop of `_expand_path` (`for j in range(1, len(full))`)
applied to `full.drop 1`: intermediate nodes get quantity `0`, the final node
of the segment gets `qb`. -/
def segmentTail (qb : ℚ) : List Nat → List Waypoint
  | [] => []
  | [x] => [(x, qb)]
  | x :: y :: rest => (x, 0) :: segmentTail qb (y :: rest)

/-- Embedding of the outer loop of `_expand_path`, without the special-cased
first waypoint `out.append((full[0], gold_a))`: each consecutive stop pair
`(a, b)` contributes the tail of its shortest path, and a missing shortest
path (`NetworkXNoPath` or `NodeNotFound`) aborts the whole expansion. -/
def expandPairs (G : Graph) : List Nat → List ℚ → Option (List Waypoint)
  | a :: b :: stops, _ :: qb :: pickups =>
    match G.shortest_path a b with
    | none => none
    | some full =>
      match expandPairs G (b :: stops) (qb :: pickups) with
      | none => none
      | some rest => some (segmentTail qb (full.drop 1) ++ rest)
  | _, _ => some []

/-- Embedding of `_expand_path` from `src/algorithm.py`.  With fewer than two
stops the loop body never runs and the (empty) accumulator is returned; with
at least two stops the first iteration additionally emits `(full[0], gold_a)`,
and the failure of any shortest-path call yields the empty list. -/
def expand_path (G : Graph) (stops : List Nat) (pickups : List ℚ) : List Waypoint :=
  match stops, pickups with
  | a :: b :: _, qa :: _ :: _ =>
    match G.shortest_path a b, expandPairs G stops pickups with
    | some full, some tail => (full.headD a, qa) :: tail
    | _, _ => []
  | _, _ => []

/-- Embedding of one iteration of the loop in `_baseline_admissible_path`:
the round trip `0 -> i -> 0`, or nothing when either shortest-path call
raises. -/
def baselineContrib (G : Graph) (i : Nat) : List Waypoint :=
  match G.shortest_path 0 i, G.shortest_path i 0 with
  | some p0i, some pi0 =>
    ((p0i.drop 1).map fun x => (x, (0 : ℚ)))
      ++ [(i, (G.gold i).getD 0)]
      ++ ((pi0.drop 1).map fun x => (x, (0 : ℚ)))
  | _, _ => []

/-- Embedding of `_baseline_admissible_path` from `src/algorithm.py`:
start at `(0, 0.0)`, round-trip every node `i` in `range(1, n)` that is
reachable in both directions, and close with `(0, 0.0)`. -/
def baseline_admissible_path (G : Graph) : List Waypoint :=
  ((0, (0 : ℚ)) :: ((List.range' 1 (G.n - 1)).map (baselineContrib G)).flatten)
    ++ [(0, 0)]

/-- Embedding of the trip loop in `run`: expand each trip in planner order,
abandoning everything as soon as one expansion comes back empty. -/
def expandTrips (G : Graph) : List Trip → Option (List Waypoint)
  | [] => some []
  | t :: ts =>
    match expand_path G t.stops t.pickups with
    | [] => none
    | w :: ws =>
      match expandTrips G ts with
      | none => none
      | some rest => some ((w :: ws) ++ rest)

/-- Embedding of the terminal-waypoint fix-up in `run`: append `(0, 0)`
unless the last waypoint already equals it (in Python `0 == 0.0`, so the
two guards there collapse to a single comparison here). -/
def ensureEnd (path : List Waypoint) : List Waypoint :=
  if path.getLast? = some (0, 0) then path else path ++ [(0, 0)]

/-- Embedding of `run` from `src/algorithm.py`, with the opaque planner call
replaced by the explicit argument `sol`. -/
def run (G : Graph) (sol : Solution) : List Waypoint :=
  if sol.trips = [] then baseline_admissible_path G
  else
    match expandTrips G sol.trips with
    | none => baseline_admissible_path G
    | some path =>
      if path = [] then baseline_admissible_path G
      else
        if is_valid G (ensureEnd path) then ensureEnd path
        else baseline_admissible_path G

/-- A finite table of shortest-path results, used to build concrete graphs:
the behaviour of `nx.shortest_path` on a fixed graph. -/
def spTable (t : List (Nat × Nat × List Nat)) : Nat → Nat → Option (List Nat) :=
  fun a b => (t.find? fun e => e.1 == a && e.2.1 == b).map fun e => e.2.2

/-- The part of the networkx `shortest_path` contract the proofs rely on:
a returned path starts at its source and ends at its target. -/
def SPSound (G : Graph) : Prop :=
  ∀ a b full, G.shortest_path a b = some full →
    full.head? = some a ∧ full.getLast? = some b

/-- Concrete two-node graph: nodes `{0, 1}`, a single edge `0 - 1`, no
self-loops, `gold` 5 at node 1; `sp1` tabulates networkx shortest paths. -/
def sp1 : List (Nat × Nat × List Nat) :=
  [(0, 0, [0]), (0, 1, [0, 1]), (1, 0, [1, 0]), (1, 1, [1])]

def edges1 : Nat → Nat → Bool :=
  fun a b => (a == 0 && b == 1) || (a == 1 && b == 0)

def G1 : Graph :=
  { n := 2
    has_edge := edges1
    gold := fun i => if i = 1 then some 5 else none
    shortest_path := spTable sp1 }

/-- Concrete three-node path graph: nodes `{0, 1, 2}`, edges `0 - 1` and
`1 - 2`, no edge `0 - 2`, no self-loops, no gold. -/
def sp3 : List (Nat × Nat × List Nat) :=
  [(0, 0, [0]), (0, 1, [0, 1]), (0, 2, [0, 1, 2]),
   (1, 0, [1, 0]), (1, 1, [1]), (1, 2, [1, 2]),
   (2, 0, [2, 1, 0]), (2, 1, [2, 1]), (2, 2, [2])]

def edges3 : Nat → Nat → Bool :=
  fun a b =>
    (a == 0 && b == 1) || (a == 1 && b == 0) ||
    (a == 1 && b == 2) || (a == 2 && b == 1)

def G3 : Graph :=
  { n := 3
    has_edge := edges3
    gold := fun _ => none
    shortest_path := spTable sp3 }

/-- Concrete one-node graph: only the origin, no edges, no gold. -/
def G0 : Graph :=
  { n := 1
    has_edge := fun _ _ => false
    gold := fun _ => none
    shortest_path := spTable [(0, 0, [0])] }

/-- Planner result used in witnesses: one trip `0 -> 1 -> 0` picking 5 gold
at node 1. -/
def solW : Solution := { trips := [{ stops := [0, 1, 0], pickups := [0, 5, 0] }] }

/-- Planner result used as a counterexample: one trip `1 -> 2` whose
expansion succeeds but whose assembled path fails validation. -/
def sol3 : Solution := { trips := [{ stops := [1, 2], pickups := [5, 7] }] }

/-! ### Helper lemmas -/

theorem spTable_sound (t : List (Nat × Nat × List Nat))
    (h : ∀ e ∈ t, e.2.2.head? = some e.1 ∧ e.2.2.getLast? = some e.2.1)
    (n : Nat) (he : Nat → Nat → Bool) (gd : Nat → Option ℚ) :
    SPSound { n := n, has_edge := he, gold := gd, shortest_path := spTable t } := by
  intro a b full hfind
  simp only [spTable, Option.map_eq_some'] at hfind
  obtain ⟨e, hfe, hval⟩ := hfind
  have hmem := List.mem_of_find?_eq_some hfe
  have hpred := List.find?_some hfe
  simp only [Bool.and_eq_true, beq_iff_eq] at hpred
  obtain ⟨h1, h2⟩ := hpred
  obtain ⟨ha, hb⟩ := h e hmem
  subst hval h1 h2
  exact ⟨ha, hb⟩

theorem headD_of_head? {α : Type} {l : List α} {a : α} (d : α)
    (h : l.head? = some a) : l.headD d = a := by
  cases l with
  | nil => simp at h
  | cons x xs => simp_all [List.headD]

theorem drop_one_facts {l : List Nat} {a b : Nat}
    (h1 : l.head? = some a) (h2 : l.getLast? = some b) (hne : a ≠ b) :
    l.drop 1 ≠ [] ∧ (l.drop 1).getLast? = some b := by
  cases l with
  | nil => simp at h1
  | cons x t =>
    simp only [List.head?_cons, Option.some.injEq] at h1
    subst h1
    cases t with
    | nil =>
      simp only [List.getLast?_singleton, Option.some.injEq] at h2
      exact absurd h2 hne
    | cons c t' =>
      refine ⟨by simp, ?_⟩
      rw [List.getLast?_cons_cons] at h2
      simpa using h2

theorem segmentTail_eq {l : List Nat} {b : Nat} (q : ℚ)
    (h : l.getLast? = some b) :
    segmentTail q l = (l.dropLast.map fun x => (x, (0 : ℚ))) ++ [(b, q)] := by
  induction l with
  | nil => simp at h
  | cons x t ih =>
    cases t with
    | nil =>
      simp only [List.getLast?_singleton, Option.some.injEq] at h
      subst h
      simp [segmentTail]
    | cons y t' =>
      rw [List.getLast?_cons_cons] at h
      have := ih h
      simp [segmentTail, this]

theorem map_zero_snd_sum (l : List Nat) :
    (((l.map fun x => (x, (0 : ℚ))).map Prod.snd)).sum = 0 := by
  induction l with
  | nil => simp
  | cons x t ih =>
    simp only [List.map_cons, List.sum_cons]
    rw [ih]
    norm_num

theorem segmentTail_sum {l : List Nat} {b : Nat} (q : ℚ)
    (h : l.getLast? = some b) :
    ((segmentTail q l).map Prod.snd).sum = q := by
  rw [segmentTail_eq q h, List.map_append, List.sum_append, map_zero_snd_sum l.dropLast]
  simp

theorem consecutiveOk_iff (G : Graph) : ∀ ns : List Nat,
    consecutiveOk G ns = true ↔
      ∀ i, i + 1 < ns.length → G.has_edge (ns.getD i 0) (ns.getD (i + 1) 0) = true
  | [] => by simp [consecutiveOk]
  | [n] => by simp [consecutiveOk]
  | n1 :: n2 :: rest => by
    rw [show consecutiveOk G (n1 :: n2 :: rest)
          = (G.has_edge n1 n2 && consecutiveOk G (n2 :: rest)) from rfl,
      Bool.and_eq_true, consecutiveOk_iff G (n2 :: rest)]
    constructor
    · rintro ⟨h1, h2⟩ i hi
      cases i with
      | zero => simpa using h1
      | succ j =>
        have hj : j + 1 < (n2 :: rest).length := by
          simpa [Nat.succ_lt_succ_iff] using hi
        simpa using h2 j hj
    · intro h
      refine ⟨by simpa using h 0 (by simp), fun j hj => ?_⟩
      have : (j + 1) + 1 < (n1 :: n2 :: rest).length := by
        simpa [Nat.succ_lt_succ_iff] using hj
      simpa using h (j + 1) this

theorem expandPairs_none_iff (G : Graph) : ∀ (stops : List Nat) (pickups : List ℚ),
    pickups.length = stops.length →
    (expandPairs G stops pickups = none ↔
      ∃ i, i + 1 < stops.length ∧
        G.shortest_path (stops.getD i 0) (stops.getD (i + 1) 0) = none)
  | [], [], _ => by simp [expandPairs]
  | [a], [qa], _ => by
    constructor
    · intro h
      simp [expandPairs] at h
    · rintro ⟨i, hi, -⟩
      simp only [List.length_singleton] at hi
      omega
  | a :: b :: stops, qa :: qb :: pickups, hlen => by
    have hlen' : (qb :: pickups).length = (b :: stops).length := by
      simpa using hlen
    have ih := expandPairs_none_iff G (b :: stops) (qb :: pickups) hlen'
    constructor
    · intro h
      rw [show expandPairs G (a :: b :: stops) (qa :: qb :: pickups)
            = (match G.shortest_path a b with
               | none => none
               | some full =>
                 match expandPairs G (b :: stops) (qb :: pickups) with
                 | none => none
                 | some rest => some (segmentTail qb (full.drop 1) ++ rest)) from rfl] at h
      cases hsp : G.shortest_path a b with
      | none => exact ⟨0, by simp, by simpa using hsp⟩
      | some full =>
        rw [hsp] at h
        cases hep : expandPairs G (b :: stops) (qb :: pickups) with
        | none =>
          obtain ⟨i, hi, hnone⟩ := ih.mp hep
          exact ⟨i + 1, by simpa [Nat.succ_lt_succ_iff] using hi, by simpa using hnone⟩
        | some rest => rw [hep] at h; simp at h
    · rintro ⟨i, hi, hnone⟩
      rw [show expandPairs G (a :: b :: stops) (qa :: qb :: pickups)
            = (match G.shortest_path a b with
               | none => none
               | some full =>
                 match expandPairs G (b :: stops) (qb :: pickups) with
                 | none => none
                 | some rest => some (segmentTail qb (full.drop 1) ++ rest)) from rfl]
      cases i with
      | zero =>
        simp only [List.getD_cons_zero, List.getD_cons_succ] at hnone
        rw [hnone]
      | succ j =>
        cases hsp : G.shortest_path a b with
        | none => rfl
        | some full =>
          have : expandPairs G (b :: stops) (qb :: pickups) = none := by
            refine ih.mpr ⟨j, ?_, ?_⟩
            · simpa [Nat.succ_lt_succ_iff] using hi
            · simpa using hnone
          rw [this]

theorem expandPairs_struct (G : Graph) (hS : SPSound G) :
    ∀ (stops : List Nat) (pickups : List ℚ) (rest : List Waypoint),
    pickups.length = stops.length →
    List.Chain' (fun a b => a ≠ b) stops →
    expandPairs G stops pickups = some rest →
    ∃ segs : List (List Waypoint),
      rest = segs.flatten ∧ segs.length = stops.length - 1 ∧
      ∀ i, i < segs.length → ∃ mid : List Nat,
        segs.getD i [] = (mid.map fun x => (x, (0 : ℚ)))
          ++ [(stops.getD (i + 1) 0, pickups.getD (i + 1) 0)]
  | [], [], rest, _, _, h => by
    refine ⟨[], ?_, by simp, by simp⟩
    simp only [expandPairs, Option.some.injEq] at h
    simp [← h]
  | [a], [qa], rest, _, _, h => by
    refine ⟨[], ?_, by simp, by simp⟩
    simp only [expandPairs, Option.some.injEq] at h
    simp [← h]
  | a :: b :: stops, qa :: qb :: pickups, rest, hlen, hch, h => by
    have hlen' : (qb :: pickups).length = (b :: stops).length := by
      simpa using hlen
    rw [List.chain'_cons] at hch
    obtain ⟨hab, hch'⟩ := hch
    rw [show expandPairs G (a :: b :: stops) (qa :: qb :: pickups)
          = (match G.shortest_path a b with
             | none => none
             | some full =>
               match expandPairs G (b :: stops) (qb :: pickups) with
               | none => none
               | some rest => some (segmentTail qb (full.drop 1) ++ rest)) from rfl] at h
    cases hsp : G.shortest_path a b with
    | none => rw [hsp] at h; simp at h
    | some full =>
      rw [hsp] at h
      cases hep : expandPairs G (b :: stops) (qb :: pickups) with
      | none => rw [hep] at h; simp at h
      | some rest' =>
        rw [hep] at h
        simp only [Option.some.injEq] at h
        obtain ⟨hhead, hlast⟩ := hS a b full hsp
        obtain ⟨hdne, hdlast⟩ := drop_one_facts hhead hlast hab
        obtain ⟨segs', hflat, hslen, hseg⟩ :=
          expandPairs_struct G hS (b :: stops) (qb :: pickups) rest' hlen' hch' hep
        refine ⟨segmentTail qb (full.drop 1) :: segs', ?_, ?_, ?_⟩
        · rw [← h, hflat]
          simp
        · simpa using hslen
        · intro i hi
          cases i with
          | zero =>
            refine ⟨(full.drop 1).dropLast, ?_⟩
            simpa using segmentTail_eq qb hdlast
          | succ j =>
            have hj : j < segs'.length := by
              simpa [Nat.succ_lt_succ_iff] using hi
            obtain ⟨mid, hmid⟩ := hseg j hj
            exact ⟨mid, by simpa using hmid⟩

theorem expandPairs_sum (G : Graph) (hS : SPSound G) :
    ∀ (stops : List Nat) (pickups : List ℚ) (rest : List Waypoint),
    pickups.length = stops.length →
    List.Chain' (fun a b => a ≠ b) stops →
    expandPairs G stops pickups = some rest →
    (rest.map Prod.snd).sum = (pickups.drop 1).sum
  | [], [], rest, _, _, h => by
    simp only [expandPairs, Option.some.injEq] at h
    simp [← h]
  | [a], [qa], rest, _, _, h => by
    simp only [expandPairs, Option.some.injEq] at h
    simp [← h]
  | a :: b :: stops, qa :: qb :: pickups, rest, hlen, hch, h => by
    have hlen' : (qb :: pickups).length = (b :: stops).length := by
      simpa using hlen
    rw [List.chain'_cons] at hch
    obtain ⟨hab, hch'⟩ := hch
    rw [show expandPairs G (a :: b :: stops) (qa :: qb :: pickups)
          = (match G.shortest_path a b with
             | none => none
             | some full =>
               match expandPairs G (b :: stops) (qb :: pickups) with
               | none => none
               | some rest => some (segmentTail qb (full.drop 1) ++ rest)) from rfl] at h
    cases hsp : G.shortest_path a b with
    | none => rw [hsp] at h; simp at h
    | some full =>
      rw [hsp] at h
      cases hep : expandPairs G (b :: stops) (qb :: pickups) with
      | none => rw [hep] at h; simp at h
      | some rest' =>
        rw [hep] at h
        simp only [Option.some.injEq] at h
        obtain ⟨hhead, hlast⟩ := hS a b full hsp
        obtain ⟨hdne, hdlast⟩ := drop_one_facts hhead hlast hab
        have hsum' := expandPairs_sum G hS (b :: stops) (qb :: pickups) rest' hlen' hch' hep
        rw [← h, List.map_append, List.sum_append, segmentTail_sum qb hdlast, hsum']
        simp

theorem expand_path_nil_iff (G : Graph) (a b : Nat) (s2 : List Nat)
    (qa qb : ℚ) (p2 : List ℚ) :
    expand_path G (a :: b :: s2) (qa :: qb :: p2) = [] ↔
      expandPairs G (a :: b :: s2) (qa :: qb :: p2) = none := by
  cases hsp : G.shortest_path a b with
  | none =>
    have hep : expandPairs G (a :: b :: s2) (qa :: qb :: p2) = none := by
      rw [show expandPairs G (a :: b :: s2) (qa :: qb :: p2)
            = (match G.shortest_path a b with
               | none => none
               | some full =>
                 match expandPairs G (b :: s2) (qb :: p2) with
                 | none => none
                 | some rest => some (segmentTail qb (full.drop 1) ++ rest)) from rfl,
        hsp]
    rw [hep]
    simp [expand_path, hsp]
  | some full =>
    cases hep : expandPairs G (a :: b :: s2) (qa :: qb :: p2) with
    | none => simp [expand_path, hsp, hep]
    | some tail => simp [expand_path, hsp, hep]

theorem expand_path_cons (G : Graph) (a b : Nat) (s2 : List Nat)
    (qa qb : ℚ) (p2 : List ℚ) {full : List Nat} {tail : List Waypoint}
    (hsp : G.shortest_path a b = some full)
    (hep : expandPairs G (a :: b :: s2) (qa :: qb :: p2) = some tail) :
    expand_path G (a :: b :: s2) (qa :: qb :: p2) = (full.headD a, qa) :: tail := by
  simp [expand_path, hsp, hep]

theorem expandTrips_some (G : Graph) : ∀ trips : List Trip,
    (∀ t ∈ trips, expand_path G t.stops t.pickups ≠ []) →
    expandTrips G trips
      = some ((trips.map fun t => expand_path G t.stops t.pickups).flatten)
  | [], _ => by simp [expandTrips]
  | t :: ts, h => by
    have hne := h t (List.mem_cons_self t ts)
    have ih := expandTrips_some G ts fun t' ht' => h t' (List.mem_cons_of_mem t ht')
    cases hexp : expand_path G t.stops t.pickups with
    | nil => exact absurd hexp hne
    | cons w ws =>
      rw [show expandTrips G (t :: ts)
            = (match expand_path G t.stops t.pickups with
               | [] => none
               | w :: ws =>
                 match expandTrips G ts with
                 | none => none
                 | some rest => some ((w :: ws) ++ rest)) from rfl,
        hexp, ih]
      simp [hexp]

theorem expandTrips_none (G : Graph) : ∀ trips : List Trip,
    (∃ t ∈ trips, expand_path G t.stops t.pickups = []) →
    expandTrips G trips = none
  | t :: ts, ⟨t', ht', hnil⟩ => by
    rw [show expandTrips G (t :: ts)
          = (match expand_path G t.stops t.pickups with
             | [] => none
             | w :: ws =>
               match expandTrips G ts with
               | none => none
               | some rest => some ((w :: ws) ++ rest)) from rfl]
    rcases List.mem_cons.mp ht' with rfl | hmem
    · rw [hnil]
    · cases hexp : expand_path G t.stops t.pickups with
      | nil => rfl
      | cons w ws => rw [expandTrips_none G ts ⟨t', hmem, hnil⟩]

theorem ensureEnd_getLast (p : List Waypoint) :
    (ensureEnd p).getLast? = some (0, 0) := by
  unfold ensureEnd
  split
  · assumption
  · simp

theorem ensureEnd_ne_nil (p : List Waypoint) : ensureEnd p ≠ [] := by
  unfold ensureEnd
  split
  · intro h
    subst h
    simp_all
  · simp

theorem ensureEnd_sum (p : List Waypoint) :
    ((ensureEnd p).map Prod.snd).sum = (p.map Prod.snd).sum := by
  unfold ensureEnd
  split
  · rfl
  · simp

theorem ensureEnd_of_last {p : List Waypoint} (h : p.getLast? = some (0, 0)) :
    ensureEnd p = p := by
  unfold ensureEnd
  rw [if_pos h]
theorem baseline_getLast (G : Graph) :
    (baseline_admissible_path G).getLast? = some (0, 0) := by
  rw [show baseline_admissible_path G
        = ((0, (0 : ℚ)) :: ((List.range' 1 (G.n - 1)).map (baselineContrib G)).flatten)
            ++ [(0, 0)] from rfl]
  rw [List.getLast?_concat]

theorem baseline_ne_nil (G : Graph) : baseline_admissible_path G ≠ [] := by
  unfold baseline_admissible_path
  simp

theorem run_of_expandTrips_none {G : Graph} {sol : Solution}
    (h0 : ¬ sol.trips = []) (hs : expandTrips G sol.trips = none) :
    run G sol = baseline_admissible_path G := by
  unfold run
  rw [if_neg h0, hs]

theorem run_of_expandTrips_some {G : Graph} {sol : Solution} {path : List Waypoint}
    (h0 : ¬ sol.trips = []) (hs : expandTrips G sol.trips = some path) :
    run G sol =
      if path = [] then baseline_admissible_path G
      else if is_valid G (ensureEnd path) then ensureEnd path
      else baseline_admissible_path G := by
  unfold run
  rw [if_neg h0, hs]

theorem run_spec (G : Graph) (sol : Solution) :
    run G sol =
      if sol.trips = [] ∨ (∃ t ∈ sol.trips, expand_path G t.stops t.pickups = [])
          ∨ is_valid G (ensureEnd
              ((sol.trips.map fun t => expand_path G t.stops t.pickups).flatten)) = false
      then baseline_admissible_path G
      else ensureEnd ((sol.trips.map fun t => expand_path G t.stops t.pickups).flatten) := by
  by_cases h0 : sol.trips = []
  · rw [if_pos (Or.inl h0)]
    unfold run
    rw [if_pos h0]
  · by_cases h1 : ∃ t ∈ sol.trips, expand_path G t.stops t.pickups = []
    · rw [if_pos (Or.inr (Or.inl h1)), run_of_expandTrips_none h0 (expandTrips_none G sol.trips h1)]
    · push_neg at h1
      have hs := expandTrips_some G sol.trips h1
      have hne : (sol.trips.map fun t => expand_path G t.stops t.pickups).flatten ≠ [] := by
        cases hT : sol.trips with
        | nil => exact absurd hT h0
        | cons t ts =>
          have ht : expand_path G t.stops t.pickups ≠ [] :=
            h1 t (by rw [hT]; exact List.mem_cons_self t ts)
          simp only [List.map_cons, List.flatten_cons, ne_eq, List.append_eq_nil]
          intro hcon
          exact ht hcon.1
      have h1' : ¬ ∃ t ∈ sol.trips, expand_path G t.stops t.pickups = [] := by
        push_neg
        exact h1
      rw [run_of_expandTrips_some h0 hs, if_neg hne]
      by_cases hv : is_valid G (ensureEnd
          ((sol.trips.map fun t => expand_path G t.stops t.pickups).flatten)) = true
      · rw [if_pos hv, if_neg ?cond]
        case cond =>
          rintro (hc | hc | hc)
          · exact h0 hc
          · exact h1' hc
          · rw [hv] at hc
            simp at hc
      · have hv' : is_valid G (ensureEnd
            ((sol.trips.map fun t => expand_path G t.stops t.pickups).flatten)) = false :=
          Bool.eq_false_iff.mpr hv
        rw [if_neg hv, if_pos (Or.inr (Or.inr hv'))]

theorem expand_path_shape (G : Graph) (stops : List Nat) (pickups : List ℚ)
    (hne : expand_path G stops pickups ≠ []) :
    ∃ a b s2 qa qb p2 full tail,
      stops = a :: b :: s2 ∧ pickups = qa :: qb :: p2 ∧
      G.shortest_path a b = some full ∧
      expandPairs G stops pickups = some tail ∧
      expand_path G stops pickups = (full.headD a, qa) :: tail := by
  match stops, pickups with
  | [], ps => exact absurd (by simp [expand_path]) hne
  | [a], ps => exact absurd (by simp [expand_path]) hne
  | a :: b :: s2, [] => exact absurd (by simp [expand_path]) hne
  | a :: b :: s2, [qa] => exact absurd (by simp [expand_path]) hne
  | a :: b :: s2, qa :: qb :: p2 =>
    cases hsp : G.shortest_path a b with
    | none => exact absurd (by simp [expand_path, hsp]) hne
    | some full =>
      cases hep : expandPairs G (a :: b :: s2) (qa :: qb :: p2) with
      | none => exact absurd (by simp [expand_path, hsp, hep]) hne
      | some tail =>
        exact ⟨a, b, s2, qa, qb, p2, full, tail, rfl, rfl, hsp, rfl,
          expand_path_cons G a b s2 qa qb p2 hsp hep⟩

theorem expand_path_sum (G : Graph) (hS : SPSound G)
    (stops : List Nat) (pickups : List ℚ)
    (hlen : pickups.length = stops.length)
    (hch : List.Chain' (fun a b => a ≠ b) stops)
    (hne : expand_path G stops pickups ≠ []) :
    ((expand_path G stops pickups).map Prod.snd).sum = pickups.sum := by
  obtain ⟨a, b, s2, qa, qb, p2, full, tail, rfl, rfl, hsp, hep, heq⟩ :=
    expand_path_shape G stops pickups hne
  have hsum := expandPairs_sum G hS (a :: b :: s2) (qa :: qb :: p2) tail hlen hch hep
  rw [heq]
  simp only [List.map_cons, List.sum_cons, hsum, List.drop_succ_cons, List.drop_zero]

theorem G1_sound : SPSound G1 :=
  spTable_sound sp1 (by decide) 2 edges1 (fun i => if i = 1 then some 5 else none)

theorem G3_sound : SPSound G3 :=
  spTable_sound sp3 (by decide) 3 edges3 (fun _ => none)

/-! ### Claims -/

/-- C1: the claim states that for every problem whose graph contains the
origin, `is_valid (run ...)` is `true`, the fallback branches included,
because the baseline is "guaranteed admissible by construction".  The code
violates this: on the two-node graph `G1` (origin present, single edge
`0 - 1`, no self-loops) with an empty planner result, `run` returns the
baseline path, whose consecutive duplicated nodes `(1, 0), (1, 5)` and
`(0, 0), (0, 0)` make `is_valid` return `false` since `has_edge 1 1` and
`has_edge 0 0` are both false. -/
theorem C1_admissibility_failure :
    0 < G1.n ∧
    run G1 { trips := [] } = [(0, 0), (1, 0), (1, 5), (0, 0), (0, 0)] ∧
    is_valid G1 (run G1 { trips := [] }) = false := by
  refine ⟨by decide, by decide, by decide⟩

/-- C2 counterexample: with the repeated stop sequence `[0, 0]` (length 2,
parallel pickups `[1, 2]`) the expansion succeeds (returns a non-empty
path), yet the pickup quantity `2` of the second stop is attached to no
waypoint at all — the `0 -> 0` shortest path is the single node `[0]`, its
inner loop body never runs, so the quantity is dropped instead of appearing
exactly once as the claim states. -/
theorem C2_counterexample :
    expand_path G1 [0, 0] [1, 2] = [(0, 1)] ∧
    ((expand_path G1 [0, 0] [1, 2]).map Prod.snd).count 2 = 0 := by
  refine ⟨by decide, by decide⟩

/-- C2 (amended): for graphs whose shortest-path routine satisfies the
networkx contract (`SPSound`) and stop sequences in which consecutive
stops are distinct, whenever `_expand_path` succeeds the quantity of the
first stop sits on the very first waypoint only, and each further segment
is a block of zero-quantity intermediate nodes followed by exactly one
waypoint carrying the segment's end stop and its pickup. -/
theorem C2_placement (G : Graph) (stops : List Nat) (pickups : List ℚ)
    (hS : SPSound G) (hlen : pickups.length = stops.length)
    (hch : List.Chain' (fun a b => a ≠ b) stops)
    (hne : expand_path G stops pickups ≠ []) :
    ∃ segs : List (List Waypoint),
      expand_path G stops pickups
        = (stops.getD 0 0, pickups.getD 0 0) :: segs.flatten ∧
      segs.length = stops.length - 1 ∧
      ∀ i, i < segs.length → ∃ mid : List Nat,
        segs.getD i [] = (mid.map fun x => (x, (0 : ℚ)))
          ++ [(stops.getD (i + 1) 0, pickups.getD (i + 1) 0)] := by
  obtain ⟨a, b, s2, qa, qb, p2, full, tail, rfl, rfl, hsp, hep, heq⟩ :=
    expand_path_shape G stops pickups hne
  obtain ⟨hhead, -⟩ := hS a b full hsp
  obtain ⟨segs, hflat, hslen, hseg⟩ :=
    expandPairs_struct G hS (a :: b :: s2) (qa :: qb :: p2) tail hlen hch hep
  refine ⟨segs, ?_, hslen, hseg⟩
  rw [heq, hflat, headD_of_head? a hhead]
  rfl

/-- C2 witness: the amended placement theorem applied to the concrete
two-stop trip `0 -> 1` with pickups `[1, 2]` on `G1`. -/
theorem C2_witness :
    SPSound G1 ∧ ([1, 2] : List ℚ).length = ([0, 1] : List Nat).length ∧
    List.Chain' (fun a b => a ≠ b) [0, 1] ∧
    expand_path G1 [0, 1] [1, 2] ≠ [] ∧
    (∃ segs : List (List Waypoint),
      expand_path G1 [0, 1] [1, 2]
        = (([0, 1] : List Nat).getD 0 0, ([1, 2] : List ℚ).getD 0 0) :: segs.flatten ∧
      segs.length = ([0, 1] : List Nat).length - 1 ∧
      ∀ i, i < segs.length → ∃ mid : List Nat,
        segs.getD i [] = (mid.map fun x => (x, (0 : ℚ)))
          ++ [(([0, 1] : List Nat).getD (i + 1) 0, ([1, 2] : List ℚ).getD (i + 1) 0)]) :=
  ⟨G1_sound, by decide, by simp, by decide,
    C2_placement G1 [0, 1] [1, 2] G1_sound (by decide) (by simp) (by decide)⟩

/-- C7: with at least two stops and a parallel pickup sequence,
`_expand_path` returns the empty list (its error channel) exactly when some
consecutive stop pair has no shortest path (networkx `NetworkXNoPath` or
`NodeNotFound`, both modelled as `none`). -/
theorem C7_failure_iff (G : Graph) (stops : List Nat) (pickups : List ℚ)
    (h2 : 2 ≤ stops.length) (hlen : pickups.length = stops.length) :
    (expand_path G stops pickups = [] ↔
      ∃ i, i + 1 < stops.length ∧
        G.shortest_path (stops.getD i 0) (stops.getD (i + 1) 0) = none) := by
  match stops, pickups with
  | [], _ => simp at h2
  | [a], _ => simp at h2
  | a :: b :: s2, [] => simp at hlen
  | a :: b :: s2, [qa] =>
    simp only [List.length_cons, List.length_nil] at hlen
    omega
  | a :: b :: s2, qa :: qb :: p2 =>
    rw [expand_path_nil_iff G a b s2 qa qb p2,
      expandPairs_none_iff G (a :: b :: s2) (qa :: qb :: p2) hlen]

/-- C7 witness: the failure characterisation instantiated on `G1` with the
successful two-stop sequence `[0, 1]`. -/
theorem C7_witness :
    2 ≤ ([0, 1] : List Nat).length ∧
    ([1, 2] : List ℚ).length = ([0, 1] : List Nat).length ∧
    (expand_path G1 [0, 1] [1, 2] = [] ↔
      ∃ i, i + 1 < ([0, 1] : List Nat).length ∧
        G1.shortest_path (([0, 1] : List Nat).getD i 0)
          (([0, 1] : List Nat).getD (i + 1) 0) = none) :=
  ⟨by decide, by decide, C7_failure_iff G1 [0, 1] [1, 2] (by decide) (by decide)⟩

/-- C3 counterexample: the planner result `sol3` (single trip `1 -> 2`,
pickups `5` and `7`) expands successfully on the path graph `G3`, yet the
assembled path `[(1,5),(2,7),(0,0)]` fails validation (`has_edge 2 0` is
false), so `run` falls back to the baseline and the sum of returned
quantities is `0`, not the planner-supplied total `12`. -/
theorem C3_counterexample :
    expand_path G3 [1, 2] [5, 7] = [(1, 5), (2, 7)] ∧
    run G3 sol3 = baseline_admissible_path G3 ∧
    ((run G3 sol3).map Prod.snd).sum = 0 ∧
    ((sol3.trips.map Trip.pickups).map List.sum).sum = 12 := by
  refine ⟨by decide, by decide, ?_, ?_⟩
  · have h : run G3 sol3
        = [(0, 0), (1, 0), (1, 0), (0, 0), (1, 0), (2, 0), (2, 0), (1, 0), (0, 0), (0, 0)] := by
      decide
    rw [h]
    norm_num
  · show ((([{ stops := [1, 2], pickups := [5, 7] }] : List Trip).map Trip.pickups).map
        List.sum).sum = 12
    simp only [List.map_cons, List.map_nil, List.sum_cons, List.sum_nil]
    norm_num

/-- C3 (amended): when the planner returns at least one trip, every trip
expands successfully with pairwise-distinct consecutive stops and parallel
pickups, and the assembled (terminal-fixed) path passes `is_valid` — so no
baseline fallback occurs — the sum of the quantities returned by `run`
equals the sum of all planner-supplied pickups. -/
theorem C3_conservation (G : Graph) (sol : Solution) (hS : SPSound G)
    (h0 : sol.trips ≠ [])
    (ht : ∀ t ∈ sol.trips, t.pickups.length = t.stops.length ∧
      List.Chain' (fun a b => a ≠ b) t.stops ∧
      expand_path G t.stops t.pickups ≠ [])
    (hv : is_valid G (ensureEnd
        ((sol.trips.map fun t => expand_path G t.stops t.pickups).flatten)) = true) :
    ((run G sol).map Prod.snd).sum = (sol.trips.map fun t => t.pickups.sum).sum := by
  have hfail : ¬ ∃ t ∈ sol.trips, expand_path G t.stops t.pickups = [] := by
    rintro ⟨t, htm, hnil⟩
    exact (ht t htm).2.2 hnil
  rw [run_spec, if_neg ?cond]
  case cond =>
    rintro (hc | hc | hc)
    · exact h0 hc
    · exact hfail hc
    · rw [hv] at hc
      simp at hc
  rw [ensureEnd_sum, List.map_flatten, List.sum_flatten, List.map_map, List.map_map]
  congr 1
  apply List.map_congr_left
  intro t htm
  obtain ⟨hl, hc, hn⟩ := ht t htm
  simpa [Function.comp] using expand_path_sum G hS t.stops t.pickups hl hc hn

/-- C3 witness: the conservation theorem applied to `G1` and the planner
result `solW`, whose single trip `0 -> 1 -> 0` assembles into the valid path
`[(0,0),(1,5),(0,0)]`; both sides of the conclusion equal `5`. -/
theorem C3_witness :
    SPSound G1 ∧ solW.trips ≠ [] ∧
    (∀ t ∈ solW.trips, t.pickups.length = t.stops.length ∧
      List.Chain' (fun a b => a ≠ b) t.stops ∧
      expand_path G1 t.stops t.pickups ≠ []) ∧
    is_valid G1 (ensureEnd
        ((solW.trips.map fun t => expand_path G1 t.stops t.pickups).flatten)) = true ∧
    ((run G1 solW).map Prod.snd).sum = (solW.trips.map fun t => t.pickups.sum).sum :=
  ⟨G1_sound, by decide,
    by
      intro t htm
      have h : t = { stops := [0, 1, 0], pickups := [0, 5, 0] } := by
        simpa [solW] using htm
      subst h
      exact ⟨by decide, by simp, by decide⟩,
    by decide,
    C3_conservation G1 solW G1_sound (by decide)
      (by
        intro t htm
        have h : t = { stops := [0, 1, 0], pickups := [0, 5, 0] } := by
          simpa [solW] using htm
        subst h
        exact ⟨by decide, by simp, by decide⟩)
      (by decide)⟩

/-- C4: on any graph whose shortest paths obey the networkx contract, every
non-origin node `i` of the iteration range that is reachable in both
directions appears in the baseline path as `(i, 0.0)` immediately followed
by `(i, g)`, where `g` is `i`'s gold attribute defaulting to 0. -/
theorem C4_round_trip (G : Graph) (i : Nat) (p1 p2 : List Nat) (hS : SPSound G)
    (hsp1 : G.shortest_path 0 i = some p1) (hsp2 : G.shortest_path i 0 = some p2)
    (hi0 : i ≠ 0) (hlo : 1 ≤ i) (hhi : i < G.n) :
    ∃ s t, baseline_admissible_path G
      = s ++ [(i, (0 : ℚ)), (i, (G.gold i).getD 0)] ++ t := by
  obtain ⟨hh1, hl1⟩ := hS 0 i p1 hsp1
  obtain ⟨hd1ne, hd1last⟩ := drop_one_facts hh1 hl1 (fun h => hi0 h.symm)
  have hsplit : (p1.drop 1).dropLast ++ [i] = p1.drop 1 :=
    List.dropLast_append_getLast? i hd1last
  have hcontrib : baselineContrib G i
      = (((p1.drop 1).dropLast.map fun x => (x, (0 : ℚ)))
          ++ [(i, (0 : ℚ)), (i, (G.gold i).getD 0)])
        ++ ((p2.drop 1).map fun x => (x, (0 : ℚ))) := by
    simp only [baselineContrib, hsp1, hsp2]
    conv_lhs => rw [← hsplit]
    simp [List.map_append]
  have hmem : i ∈ List.range' 1 (G.n - 1) := by
    rw [List.mem_range'_1]
    omega
  obtain ⟨l1, l2, hsp⟩ := List.append_of_mem hmem
  refine ⟨(0, 0) :: ((l1.map (baselineContrib G)).flatten
      ++ ((p1.drop 1).dropLast.map fun x => (x, (0 : ℚ)))),
    ((p2.drop 1).map fun x => (x, (0 : ℚ)))
      ++ ((l2.map (baselineContrib G)).flatten ++ [(0, 0)]), ?_⟩
  rw [show baseline_admissible_path G
        = ((0, (0 : ℚ)) :: ((List.range' 1 (G.n - 1)).map (baselineContrib G)).flatten)
            ++ [(0, 0)] from rfl,
    hsp]
  simp only [List.map_append, List.map_cons, List.flatten_append, List.flatten_cons,
    hcontrib, List.cons_append, List.append_assoc]

/-- C4 witness: on `G1` the baseline path `[(0,0),(1,0),(1,5),(0,0),(0,0)]`
contains the adjacent pair `(1, 0), (1, 5)` for the round-trip node 1. -/
theorem C4_witness :
    SPSound G1 ∧ G1.shortest_path 0 1 = some [0, 1] ∧
    G1.shortest_path 1 0 = some [1, 0] ∧
    (∃ s t, baseline_admissible_path G1
      = s ++ [(1, (0 : ℚ)), (1, (G1.gold 1).getD 0)] ++ t) :=
  ⟨G1_sound, by decide, by decide,
    C4_round_trip G1 1 [0, 1] [1, 0] G1_sound (by decide) (by decide)
      (by decide) (by decide) (by decide)⟩

/-- C5: for every graph containing the origin and every planner result, the
path returned by `run` is non-empty and its last waypoint is exactly
`(0, 0)` — both fallback branches end with the explicitly appended
`(0, 0.0)` of the baseline, and the assembled branch is terminal-fixed
before validation. -/
theorem C5_termination (G : Graph) (sol : Solution) (_h : 0 < G.n) :
    run G sol ≠ [] ∧ (run G sol).getLast? = some (0, 0) := by
  rw [run_spec]
  split
  · exact ⟨baseline_ne_nil G, baseline_getLast G⟩
  · exact ⟨ensureEnd_ne_nil _, ensureEnd_getLast _⟩

/-- C5 witness: the termination theorem instantiated on the two-node graph
`G1` with an empty planner result. -/
theorem C5_witness :
    0 < G1.n ∧
    (run G1 { trips := [] } ≠ [] ∧
      (run G1 { trips := [] }).getLast? = some (0, 0)) :=
  ⟨by decide, C5_termination G1 { trips := [] } (by decide)⟩

/-- C6: `run` returns the baseline exactly when the planner returns no
trips, or some trip expands to the empty list, or the assembled
(terminal-fixed) path fails `is_valid`; otherwise it returns the
concatenation of the expanded trip segments in planner order with the
terminal `(0, 0)` appended when needed.  (No partial or mixed result is
possible: the equality below covers every branch of the code.) -/
theorem C6_fallback_policy (G : Graph) (sol : Solution) :
    run G sol =
      if sol.trips = [] ∨ (∃ t ∈ sol.trips, expand_path G t.stops t.pickups = [])
          ∨ is_valid G (ensureEnd
              ((sol.trips.map fun t => expand_path G t.stops t.pickups).flatten)) = false
      then baseline_admissible_path G
      else ensureEnd ((sol.trips.map fun t => expand_path G t.stops t.pickups).flatten) :=
  run_spec G sol

/-- C8: `is_valid` returns `true` precisely when the path is non-empty, its
first node is the origin or adjacent to the origin, and every pair of
consecutive nodes is joined by a direct edge; the empty path and any single
missing edge yield `false`, and the function is total on arbitrary input. -/
theorem C8_is_valid_iff (G : Graph) (path : List Waypoint) :
    is_valid G path = true ↔
      path ≠ [] ∧
      ((path.map Prod.fst).headD 0 = 0
        ∨ G.has_edge 0 ((path.map Prod.fst).headD 0) = true) ∧
      ∀ i, i + 1 < path.length →
        G.has_edge ((path.map Prod.fst).getD i 0)
          ((path.map Prod.fst).getD (i + 1) 0) = true := by
  cases path with
  | nil => simp [is_valid]
  | cons hd tl =>
    obtain ⟨n0, q0⟩ := hd
    rw [show is_valid G ((n0, q0) :: tl)
          = (if n0 != 0 && ! G.has_edge 0 n0 then false
             else consecutiveOk G (((n0, q0) :: tl).map Prod.fst)) from rfl]
    by_cases hc : (n0 != 0 && ! G.has_edge 0 n0) = true
    · rw [if_pos hc]
      simp only [Bool.and_eq_true, bne_iff_ne, ne_eq, Bool.not_eq_true'] at hc
      obtain ⟨hne0, hedge⟩ := hc
      simp [hne0, hedge]
    · rw [if_neg hc]
      have hfirst : n0 = 0 ∨ G.has_edge 0 n0 = true := by
        by_cases hn : n0 = 0
        · exact Or.inl hn
        · cases hE : G.has_edge 0 n0 with
          | true => exact Or.inr rfl
          | false =>
            exact absurd (by simp [hn, hE]) hc
      rw [consecutiveOk_iff]
      constructor
      · intro h
        refine ⟨by simp, by simpa using hfirst, ?_⟩
        intro i hi
        exact h i (by simpa using hi)
      · rintro ⟨-, -, h⟩
        intro i hi
        exact h i (by simpa using hi)

/-- C9: the baseline builder is total: a node unreachable in either
direction contributes nothing (it is skipped, not an error), the result is
never empty, and on a graph containing only the origin it is exactly
`[(0, 0.0), (0, 0.0)]`. -/
theorem C9_baseline_total (G : Graph) :
    (G.n = 1 → baseline_admissible_path G = [(0, 0), (0, 0)]) ∧
    (∀ i, G.shortest_path 0 i = none ∨ G.shortest_path i 0 = none →
      baselineContrib G i = []) ∧
    baseline_admissible_path G ≠ [] := by
  refine ⟨?_, ?_, baseline_ne_nil G⟩
  · intro h1
    unfold baseline_admissible_path
    rw [h1]
    rfl
  · intro i hi
    rcases hi with hi | hi
    · simp only [baselineContrib, hi]
    · cases hsp : G.shortest_path 0 i with
      | none => simp only [baselineContrib, hsp]
      | some p => simp only [baselineContrib, hsp, hi]

/-- C9 witness: the totality theorem applied to the one-node graph `G0`
(result exactly `[(0,0),(0,0)]`) and to the unreachable node 3. -/
theorem C9_witness :
    baseline_admissible_path G0 = [(0, 0), (0, 0)] ∧ baselineContrib G0 3 = [] :=
  ⟨(C9_baseline_total G0).1 rfl,
    (C9_baseline_total G0).2.1 3 (Or.inl (by decide))⟩

/-- C10: when every trip expands successfully and the concatenated expanded
path already ends with `(0, 0)` (integer and float zero coincide here),
`run` appends nothing: it returns either that concatenation unchanged (when
it validates) or the baseline — never a path with a duplicated terminal
`(0, 0)`. -/
theorem C10_no_duplicate_end (G : Graph) (sol : Solution)
    (h0 : sol.trips ≠ [])
    (ht : ∀ t ∈ sol.trips, expand_path G t.stops t.pickups ≠ [])
    (hend : ((sol.trips.map fun t => expand_path G t.stops t.pickups).flatten).getLast?
      = some (0, 0)) :
    run G sol =
      if is_valid G ((sol.trips.map fun t => expand_path G t.stops t.pickups).flatten) = true
      then (sol.trips.map fun t => expand_path G t.stops t.pickups).flatten
      else baseline_admissible_path G := by
  have hEE := ensureEnd_of_last hend
  have hfail : ¬ ∃ t ∈ sol.trips, expand_path G t.stops t.pickups = [] := by
    rintro ⟨t, htm, hnil⟩
    exact ht t htm hnil
  rw [run_spec, hEE]
  by_cases hv : is_valid G
      ((sol.trips.map fun t => expand_path G t.stops t.pickups).flatten) = true
  · rw [if_pos hv, if_neg ?cond]
    case cond =>
      rintro (hc | hc | hc)
      · exact h0 hc
      · exact hfail hc
      · rw [hv] at hc
        simp at hc
  · have hv' : is_valid G
        ((sol.trips.map fun t => expand_path G t.stops t.pickups).flatten) = false :=
      Bool.eq_false_iff.mpr hv
    rw [if_neg hv, if_pos (Or.inr (Or.inr hv'))]

/-- C10 witness: on `G1` with the planner result `solW` the concatenated
expansion `[(0,0),(1,5),(0,0)]` already ends with `(0,0)`, and `run`
returns it unchanged — no duplicate terminal waypoint. -/
theorem C10_witness : run G1 solW = [(0, 0), (1, 5), (0, 0)] := by
  have h := C10_no_duplicate_end G1 solW (by decide)
    (by
      intro t htm
      have ht : t = { stops := [0, 1, 0], pickups := [0, 5, 0] } := by
        simpa [solW] using htm
      subst ht
      decide)
    (by decide)
  rw [h]
  decide
